import Mathlib

/-!
Verification development for the Apache server-status URL monitor
(`tool.py`).  The program text is embedded shallowly: strings are
modelled as `List Char`, every function of the tool is translated into
an executable Lean definition, and the behaviour of the external
collaborators the tool calls into (`urllib.parse.urlparse`,
BeautifulSoup document trees, the network) is modelled explicitly.

Modelling conventions:
  - Python strings are `List Char`; a Python function that may raise is
    an `Except Unit` value.
  - `urlparse` follows CPython 3.11 `urllib.parse.urlsplit`/`urlparse`
    restricted to the components the tool reads (`scheme`, `netloc`,
    `path`).  Two deliberate simplifications, both irrelevant to the
    claims below: bracketed (IPv6) netlocs are modelled as always
    rejected (CPython validates the bracketed host and rejects the
    invalid ones), and the NFKC check for non-ASCII netlocs is omitted.
  - Character classes (`str.strip`, regex `\s`, `\w`) are modelled over
    their ASCII core; the status pages the tool consumes are ASCII.
-/

set_option maxRecDepth 10000

deriving instance DecidableEq for Except

namespace ApacheStatus

/-- Characters stripped from the left end of a URL by `urlsplit`
(WHATWG C0 controls and space, code points 0x00 to 0x20). -/
def isC0OrSpace (c : Char) : Bool := c.toNat ≤ 0x20

/-- Characters removed everywhere in a URL by `urlsplit`: tab (9),
CR (13), LF (10). -/
def isUnsafeByte (c : Char) : Bool := c.toNat == 9 || c.toNat == 13 || c.toNat == 10

/-- Characters valid in a scheme name per `urllib.parse.scheme_chars`:
ASCII letters (65-90, 97-122), digits (48-57), plus (43), hyphen (45)
and dot (46). -/
def isSchemeChar (c : Char) : Bool :=
  (65 ≤ c.toNat && c.toNat ≤ 90) || (97 ≤ c.toNat && c.toNat ≤ 122) ||
  (48 ≤ c.toNat && c.toNat ≤ 57) || c.toNat == 43 || c.toNat == 45 || c.toNat == 46

/-- ASCII letter test used for the first scheme character
(`url[0].isascii() and url[0].isalpha()`). -/
def isAsciiAlpha (c : Char) : Bool :=
  (65 ≤ c.toNat && c.toNat ≤ 90) || (97 ≤ c.toNat && c.toNat ≤ 122)

/-- Sanitization done at the start of `urlsplit`: left-strip C0 controls
and spaces, then remove every tab, CR and LF. -/
def sanitize (l : List Char) : List Char :=
  (l.dropWhile isC0OrSpace).filter (fun c => !isUnsafeByte c)

/-- Scheme extraction of `urlsplit`: if the first colon is preceded by a
non-empty run of scheme characters starting with an ASCII letter, that
run (lower-cased) is the scheme and parsing continues after the colon;
otherwise there is no scheme. -/
def splitScheme (url : List Char) : List Char × List Char :=
  let pre := url.takeWhile isSchemeChar
  match url.dropWhile isSchemeChar with
  | ':' :: r =>
    if pre ≠ [] ∧ isAsciiAlpha (pre.headD ' ') then (pre.map Char.toLower, r) else ([], url)
  | _ => ([], url)

/-- Netloc delimiter characters of `_splitnetloc`. -/
def isNetDelim (c : Char) : Bool := c == '/' || c == '?' || c == '#'

def notNetDelim (c : Char) : Bool := !isNetDelim c

/-- Netloc acceptance check of `urlsplit`.  CPython raises `ValueError`
for unbalanced brackets and for balanced brackets whose content is not a
valid IPv6/IPvFuture literal; the model conservatively rejects every
netloc containing a bracket (no claim involves IPv6 literals). -/
def netlocOk (n : List Char) : Bool := !(n.contains '[' || n.contains ']')

def notHash (c : Char) : Bool := c != '#'

def notQm (c : Char) : Bool := c != '?'

def notSlash (c : Char) : Bool := c != '/'

def notSemi (c : Char) : Bool := c != ';'

/-- Schemes for which `urlparse` splits params off the path
(`urllib.parse.uses_params`). -/
def uses_params : List (List Char) :=
  [[]] ++ (["ftp", "hdl", "prospero", "http", "imap", "https", "shttp",
            "rtsp", "rtsps", "rtspu", "sip", "sips", "mms", "sftp", "tel"].map String.toList)

/-- Param split of `urlparse._splitparams`, returning only the path part:
when the path contains a semicolon, the part of the last slash-separated
segment from its first semicolon on is dropped. -/
def splitparams (p : List Char) : List Char :=
  if p.contains ';' then
    if p.contains '/' then
      let afterSlash := (p.reverse.takeWhile notSlash).reverse
      let upToSlash := (p.reverse.dropWhile notSlash).reverse
      if afterSlash.contains ';' then upToSlash ++ afterSlash.takeWhile notSemi else p
    else p.takeWhile notSemi
  else p

/-- Result components of `urlparse` that the tool reads. -/
structure UrlParts where
  scheme : List Char
  netloc : List Char
  path : List Char
deriving DecidableEq, Repr

/-- Model of `urllib.parse.urlparse` (CPython 3.11), producing the
`scheme`, `netloc` and `path` components.  `error` stands for the
`ValueError` CPython raises on a rejected netloc. -/
def urlparse (url : List Char) : Except Unit UrlParts :=
  let u := sanitize url
  let (scheme, rest) := splitScheme u
  let (netloc, rest2) :=
    if rest.take 2 = ['/', '/'] then
      ((rest.drop 2).takeWhile notNetDelim, (rest.drop 2).dropWhile notNetDelim)
    else ([], rest)
  if netlocOk netloc then
    let praw := (rest2.takeWhile notHash).takeWhile notQm
    .ok ⟨scheme, netloc, if uses_params.contains scheme then splitparams praw else praw⟩
  else
    .error ()

def httpChars : List Char := ['h', 't', 't', 'p']

def schemeSep : List Char := [':', '/', '/']

def serverStatus : List Char :=
  ['/', 's', 'e', 'r', 'v', 'e', 'r', '-', 's', 't', 'a', 't', 'u', 's']

/-- Model of `clean_url` from `tool.py`:

    def clean_url(url):
        parsed = urlparse(url)
        if not parsed.scheme:
            url = f"http://\x7burl\x7d"
            parsed = urlparse(url)
        if not parsed.path.endswith("/server-status"):
            url = f"\x7bparsed.scheme\x7d://\x7bparsed.netloc\x7d/server-status"
        return url
-/
def clean_url (url : List Char) : Except Unit (List Char) :=
  match urlparse url with
  | .error e => .error e
  | .ok parsed =>
    if parsed.scheme.isEmpty then
      match urlparse (httpChars ++ schemeSep ++ url) with
      | .error e => .error e
      | .ok p2 =>
        if serverStatus.isSuffixOf p2.path then .ok (httpChars ++ schemeSep ++ url)
        else .ok (p2.scheme ++ schemeSep ++ p2.netloc ++ serverStatus)
    else
      if serverStatus.isSuffixOf parsed.path then .ok url
      else .ok (parsed.scheme ++ schemeSep ++ parsed.netloc ++ serverStatus)

/-! HTML document model.  BeautifulSoup with the lxml parser is an
external collaborator; the model works on the parsed document tree.  A
fetched page is carried as a `Doc`: the raw text together with its parse
tree, the latter produced by the external parser. -/

/-- Node of a parsed HTML document: an element with a tag name and
children, or a text node. -/
inductive HNode where
  | tag : List Char → List HNode → HNode
  | text : List Char → HNode

/-- Children of a node. -/
def HNode.children : HNode → List HNode
  | .tag _ cs => cs
  | .text _ => []

mutual

/-- Concatenated text of a subtree (`Tag.get_text`). -/
def getText : HNode → List Char
  | .text s => s
  | .tag _ cs => getTextList cs

def getTextList : List HNode → List Char
  | [] => []
  | n :: ns => getText n ++ getTextList ns

end

mutual

/-- All elements with the given tag name in a subtree, document order,
the root included (`find_all` searches all descendants recursively). -/
def findInNode (name : List Char) : HNode → List HNode
  | .text _ => []
  | .tag t cs => (if t = name then [HNode.tag t cs] else []) ++ findInList name cs

def findInList (name : List Char) : List HNode → List HNode
  | [] => []
  | n :: ns => findInNode name n ++ findInList name ns

end

/-- The `Tag.string` of BeautifulSoup: the single string inside an
element, following a chain of single children; `none` when the element
has zero or several children. -/
def nodeString : HNode → Option (List Char)
  | .text s => some s
  | .tag _ [c] => nodeString c
  | .tag _ _ => none

/-- Fetched page: raw text plus its BeautifulSoup/lxml parse tree. -/
structure Doc where
  raw : List Char
  dom : List HNode

/-- Substring test (Python `in` on strings). -/
def hasSub (needle hay : List Char) : Bool :=
  hay.tails.any (fun t => needle.isPrefixOf t)

def titleTag : List Char := ['t', 'i', 't', 'l', 'e']

def h1Tag : List Char := ['h', '1']

def tableTag : List Char := ['t', 'a', 'b', 'l', 'e']

def trTag : List Char := ['t', 'r']

def tdTag : List Char := ['t', 'd']

def apacheStatusLit : List Char := "Apache Status".toList

def apacheServerStatusLit : List Char := "Apache Server Status".toList

def h1ApacheLit : List Char := "<h1>Apache Server Status for".toList

def srvPidLit : List Char := "<th>Srv</th><th>PID</th>".toList

/-- Indicator 1 of `Parser.is_valid` when it evaluates without raising:
the document has a title whose string contains "Apache Status". -/
def indicatorTitle (d : Doc) : Bool :=
  match (findInList titleTag d.dom).head? with
  | some t =>
    match nodeString t with
    | some s => hasSub apacheStatusLit s
    | none => false
  | none => false

/-- Indicator 2: some `h1` element whose text contains
"Apache Server Status". -/
def indicatorH1 (d : Doc) : Bool :=
  (findInList h1Tag d.dom).any (fun h => hasSub apacheServerStatusLit (getText h))

/-- Indicator 3: the raw body contains the literal
`<h1>Apache Server Status for`. -/
def indicatorRawH1 (d : Doc) : Bool := hasSub h1ApacheLit d.raw

/-- Indicator 4: the raw body contains the literal
`<th>Srv</th><th>PID</th>`. -/
def indicatorRawTh (d : Doc) : Bool := hasSub srvPidLit d.raw

/-- Evaluating indicator 1 does not raise: either there is no title
element, or the first one has a determinate `.string`. -/
def titleSafe (d : Doc) : Bool :=
  match (findInList titleTag d.dom).head? with
  | some t => (nodeString t).isSome
  | none => true

/-- Model of `Parser.is_valid` from `tool.py`: false on an empty body,
otherwise the disjunction of the four indicators.  `error` is the
`TypeError` Python raises while building the indicator list when a title
element is present but `soup.title.string` is `None` (the expression
`"Apache Status" in soup.title.string` has a `None` right operand); a
BeautifulSoup tag is always truthy, so the `soup.title and ...` guard
does not prevent this. -/
def is_valid (d : Doc) : Except Unit Bool :=
  if d.raw.isEmpty then .ok false
  else
    match (findInList titleTag d.dom).head? with
    | some t =>
      match nodeString t with
      | none => .error ()
      | some s =>
        .ok (hasSub apacheStatusLit s || indicatorH1 d || indicatorRawH1 d || indicatorRawTh d)
    | none => .ok (indicatorH1 d || indicatorRawH1 d || indicatorRawTh d)

/-- Extracted record of `Parser.extract_urls`. -/
structure Entry where
  pid : List Char
  method : List Char
  url : List Char
deriving DecidableEq, Repr

/-- ASCII whitespace (Python `str.strip` and regex `\s`): space (32),
tab (9), LF (10), VT (11), FF (12), CR (13). -/
def isPySpace (c : Char) : Bool :=
  c.toNat == 32 || c.toNat == 9 || c.toNat == 10 || c.toNat == 13 ||
  c.toNat == 11 || c.toNat == 12

def notPySpace (c : Char) : Bool := !isPySpace c

/-- Python `str.strip()`. -/
def pyStrip (s : List Char) : List Char :=
  ((s.dropWhile isPySpace).reverse.dropWhile isPySpace).reverse

/-- Word characters of the regex class `\w` (ASCII): letters (65-90,
97-122), digits (48-57), underscore (95). -/
def isWordChar (c : Char) : Bool :=
  (65 ≤ c.toNat && c.toNat ≤ 90) || (97 ≤ c.toNat && c.toNat ≤ 122) ||
  (48 ≤ c.toNat && c.toNat ≤ 57) || c.toNat == 95

/-- Matcher for the request-line pattern
`(\w+)\s+([^\s]+)(?:\s+HTTP/\d\.\d)?` under `re.match` (anchored at the
start only).  Because `\w` and `\s` are disjoint and `[^\s]` is the
complement of `\s`, the backtracking search is equivalent to taking
maximal runs: a non-empty maximal `\w+` run, then a non-empty whitespace
run, then a non-empty maximal non-space run; the optional HTTP-version
group never constrains success and its text is dropped. -/
def matchRequest (s : List Char) : Option (List Char × List Char) :=
  let m := s.takeWhile isWordChar
  let r1 := s.dropWhile isWordChar
  if m.isEmpty then none
  else if (r1.takeWhile isPySpace).isEmpty then none
  else
    let uri := (r1.dropWhile isPySpace).takeWhile notPySpace
    if uri.isEmpty then none else some (m, uri)

/-- Columns of a row: its `td` descendants (`row.find_all("td")`). -/
def rowCols (row : HNode) : List HNode := findInList tdTag row.children

/-- Request-line field of a row: column 14, trimmed. -/
def rowRequest (row : HNode) : List Char :=
  pyStrip (getText ((rowCols row).getD 14 (.text [])))

/-- Body of the per-row loop in `Parser.extract_urls`: skip rows with
fewer than 15 columns, skip rows whose request line does not match, skip
rows with an empty vhost; otherwise append
`\x7bpid, method, "http://" + vhost + uri\x7d`. -/
def processRow (acc : List Entry) (row : HNode) : List Entry :=
  let cols := rowCols row
  if cols.length < 15 then acc
  else
    let pid := pyStrip (getText (cols.getD 1 (.text [])))
    let vhost := pyStrip (getText (cols.getD 13 (.text [])))
    match matchRequest (rowRequest row) with
    | none => acc
    | some (m, uri) =>
      if !vhost.isEmpty && !uri.isEmpty then
        acc ++ [⟨pid, m, httpChars ++ schemeSep ++ vhost ++ uri⟩]
      else acc

/-- Model of `Parser.extract_urls` on the parse tree: take the first
`table`, drop its header row, and run the per-row loop over the rest;
with no table the result is empty. -/
def extract_urls (dom : List HNode) : List Entry :=
  match findInList tableTag dom with
  | [] => []
  | t :: _ => ((findInList trTag t.children).drop 1).foldl processRow []

/-! Network model and the pipeline controller. -/

/-- Outcome of one `requests.get` call, decided by the environment. -/
inductive NetRes where
  | ok (doc : Doc) (status : Nat)
  | sslError
  | fail

/-- Network environment: the outcome of the GET issued on retry round
`a` against a target URL with the given certificate-verification flag. -/
def Net : Type := Nat → List Char → Bool → NetRes

def httpsChars : List Char := ['h', 't', 't', 'p', 's']

/-- One scheme attempt of `Requester.fetch`: GET with verification; on
`SSLError` retry once with verification disabled; any other failure
gives up on this scheme for this round. -/
def tryScheme (net : Net) (a : Nat) (target : List Char) : Option (Doc × Nat) :=
  match net a target true with
  | .ok d s => some (d, s)
  | .sslError =>
    match net a target false with
    | .ok d s => some (d, s)
    | _ => none
  | .fail => none

/-- Model of `Requester.fetch`: candidate schemes come from the URL
(both `http` and `https` when it has none, else just its own); up to 3
rounds try every scheme in order and the first response is returned
immediately; when nothing succeeds the result is an empty body and no
status code.  `error` is the `ValueError` the `urlparse` calls inside
`fetch` may raise. -/
def fetch (net : Net) (url : List Char) : Except Unit (Doc × Option Nat) :=
  match urlparse url with
  | .error e => .error e
  | .ok p =>
    let schemes := if p.scheme.isEmpty then [httpChars, httpsChars] else [p.scheme]
    let target := fun (sch : List Char) =>
      if p.scheme.isEmpty then sch ++ schemeSep ++ p.netloc ++ p.path else url
    let tries := (List.range 3).flatMap (fun a => schemes.map (fun sch => (a, target sch)))
    match tries.findSome? (fun pr => tryScheme net pr.1 pr.2) with
    | some (d, s) => .ok (d, some s)
    | none => .ok (⟨[], []⟩, none)

/-- Status code shown in the NOT VULNERABLE line
(`Status: \x7bstatus_code or 'None'\x7d`): a zero or absent code prints
as `None`. -/
def statusText : Option Nat → List Char
  | some n => if n = 0 then "None".toList else (toString n).toList
  | none => "None".toList

/-- Result of one `process_url` call: the verdict, the status text of
the NOT VULNERABLE line when there is one, the URLs newly emitted
(printed and appended to the output file), and the seen-set after the
call. -/
structure ProcResult where
  vulnerable : Bool
  reported : Option (List Char)
  emitted : List (List Char)
  seen : List (List Char)
deriving DecidableEq, Repr

/-- Emission loop of `process_url`: each entry URL absent from the
seen-set is added to it and emitted; entries already seen produce no
output. -/
def addEntries : List Entry → List (List Char) → List (List Char) →
    List (List Char) × List (List Char)
  | [], seen, emitted => (emitted, seen)
  | e :: es, seen, emitted =>
    if seen.contains e.url then addEntries es seen emitted
    else addEntries es (seen ++ [e.url]) (emitted ++ [e.url])

/-- Model of `process_url` from `tool.py`: normalize, fetch, validate;
when invalid, report NOT VULNERABLE with the status text and leave the
seen-set unchanged; when valid, extract entries and emit the unseen
ones.  `error` covers the exceptions `clean_url`, `fetch` or `is_valid`
can raise, which `process_url` does not catch. -/
def process_url (net : Net) (url : List Char) (seen : List (List Char)) :
    Except Unit ProcResult :=
  match clean_url url with
  | .error e => .error e
  | .ok cleaned =>
    match fetch net cleaned with
    | .error e => .error e
    | .ok (doc, status) =>
      match is_valid doc with
      | .error e => .error e
      | .ok false => .ok ⟨false, some (statusText status), [], seen⟩
      | .ok true =>
        let entries := extract_urls doc.dom
        let (em, seen2) := addEntries entries seen []
        .ok ⟨true, none, em, seen2⟩

/-- Command-line configuration relevant to the processing loop: the
single URL (`-u`), or else the target list loaded from the input file. -/
structure Args where
  url : Option (List Char)
  input : List (List Char)

/-- Targets the loop in `main` iterates over: the single URL when one is
given, otherwise the input-file list. -/
def targetList (args : Args) : List (List Char) :=
  match args.url with
  | some u => [u]
  | none => args.input

/-- Processing loop of `main`: one `process_url` call per element of the
target list, threading the shared seen-set; the countdown and sleeps
between iterations affect timing only.  The trace records each processed
target with its result, in order. -/
def runLoop (net : Net) : List (List Char) → List (List Char) →
    Except Unit (List (List Char × ProcResult))
  | [], _ => .ok []
  | u :: us, seen =>
    match process_url net u seen with
    | .error e => .error e
    | .ok r =>
      match runLoop net us r.seen with
      | .error e => .error e
      | .ok rest => .ok ((u, r) :: rest)

/-- Model of the processing phase of `main` for a run with no external
interrupt: the `for` loop over the target list runs its body once per
element and then falls through to the summary; there is no enclosing
loop, in single-URL mode included. -/
def runMain (net : Net) (args : Args) : Except Unit (List (List Char × ProcResult)) :=
  runLoop net (targetList args) []

/-- Environment in which every network attempt fails outright. -/
def netDown : Net := fun _ _ _ => .fail

/-! Concrete fixtures: document trees written out as lxml parses them,
used by counterexamples and witnesses. -/

/-- Table cell holding one text node. -/
def mkTd (s : List Char) : HNode := .tag tdTag [.text s]

/-- Empty table cell. -/
def emptyTd : HNode := .tag tdTag []

/-- Table header cell holding one text node. -/
def mkTh (s : List Char) : HNode := .tag ['t', 'h'] [.text s]

/-- Header row of a full status table: the 15 column labels of the
Apache worker table. -/
def headerRow : HNode :=
  .tag trTag
    [mkTh "Srv".toList, mkTh "PID".toList, mkTh "Acc".toList, mkTh "M".toList,
     mkTh "CPU".toList, mkTh "SS".toList, mkTh "Req".toList, mkTh "Dur".toList,
     mkTh "Conn".toList, mkTh "Child".toList, mkTh "Slot".toList, mkTh "Client".toList,
     mkTh "Protocol".toList, mkTh "VHost".toList, mkTh "Request".toList]

/-- Data row with the 15 columns of the full status-table layout:
pid "123" at index 1, vhost "example.com" at index 13, request
"GET /foo HTTP/1.1" at index 14, other cells empty. -/
def c5Row : HNode :=
  .tag trTag
    [emptyTd, mkTd "123".toList, emptyTd, emptyTd, emptyTd, emptyTd, emptyTd, emptyTd,
     emptyTd, emptyTd, emptyTd, emptyTd, emptyTd, mkTd "example.com".toList,
     mkTd "GET /foo HTTP/1.1".toList]

/-- Document whose first table is `headerRow` plus `c5Row`. -/
def c5Dom : List HNode :=
  [.tag "html".toList [.tag "body".toList [.tag tableTag [headerRow, c5Row]]]]

/-- Data row identical to `c5Row` except that the request-line method
token `GE-T` contains a hyphen: all its characters are non-space, but
`-` is not a `\w` character. -/
def c4Row : HNode :=
  .tag trTag
    [emptyTd, mkTd "123".toList, emptyTd, emptyTd, emptyTd, emptyTd, emptyTd, emptyTd,
     emptyTd, emptyTd, emptyTd, emptyTd, emptyTd, mkTd "example.com".toList,
     mkTd "GE-T /foo HTTP/1.1".toList]

/-- Document whose first table is `headerRow` plus `c4Row`. -/
def c4Dom : List HNode :=
  [.tag "html".toList [.tag "body".toList [.tag tableTag [headerRow, c4Row]]]]

/-- Parse tree of
`<html><head><title></title></head><body><h1>Apache Server Status</h1></body></html>`:
an empty title element followed by an `h1` containing the
"Apache Server Status" text. -/
def c3Dom : List HNode :=
  [.tag "html".toList
    [.tag "head".toList [.tag titleTag []],
     .tag "body".toList [.tag h1Tag [.text apacheServerStatusLit]]]]

/-- The raw text whose parse `c3Dom` is. -/
def c3Raw : List Char :=
  "<html><head><title></title></head><body><h1>Apache Server Status</h1></body></html>".toList

def c3Doc : Doc := ⟨c3Raw, c3Dom⟩

/-- Serialization of `c5Dom`; it contains the literal
`<th>Srv</th><th>PID</th>`. -/
def c5Raw : List Char :=
  ("<html><body><table><tr><th>Srv</th><th>PID</th><th>Acc</th><th>M</th><th>CPU</th>"
   ++ "<th>SS</th><th>Req</th><th>Dur</th><th>Conn</th><th>Child</th><th>Slot</th>"
   ++ "<th>Client</th><th>Protocol</th><th>VHost</th><th>Request</th></tr>"
   ++ "<tr><td></td><td>123</td><td></td><td></td><td></td><td></td><td></td><td></td>"
   ++ "<td></td><td></td><td></td><td></td><td></td><td>example.com</td>"
   ++ "<td>GET /foo HTTP/1.1</td></tr></table></body></html>").toList

/-- Valid status page: `c5Raw` with its parse tree `c5Dom`. -/
def c5Page : Doc := ⟨c5Raw, c5Dom⟩

/-- Environment that always serves `c5Page` with status 200. -/
def netC5 : Net := fun _ _ _ => .ok c5Page 200

/-- Parse tree and text of
`<html><head><title>Apache Status</title></head></html>`. -/
def goodTitleDoc : Doc :=
  ⟨"<html><head><title>Apache Status</title></head></html>".toList,
   [.tag "html".toList [.tag "head".toList [.tag titleTag [.text apacheStatusLit]]]]⟩

/-! Helper lemmas about characters. -/

theorem toNat_ofNat_valid {n : Nat} (h : n < 55296) : (Char.ofNat n).toNat = n := by
  rw [Char.ofNat, dif_pos (Or.inl h)]
  simp [Char.ofNatAux, Char.toNat, UInt32.toNat]

theorem toLower_toNat_upper {c : Char} (h1 : 65 ≤ c.toNat) (h2 : c.toNat ≤ 90) :
    c.toLower.toNat = c.toNat + 32 := by
  unfold Char.toLower
  rw [if_pos ⟨h1, h2⟩]
  exact toNat_ofNat_valid (by omega)

theorem toLower_not_upper {c : Char} (h : 90 < c.toNat ∨ c.toNat < 65) : c.toLower = c := by
  unfold Char.toLower
  rw [if_neg (by omega)]

/-- Facts about scheme characters that the reparse argument needs. -/
theorem schemeChar_bundle {c : Char} (h : isSchemeChar c = true) :
    isSchemeChar c.toLower = true ∧ c.toLower.toLower = c.toLower ∧
    isUnsafeByte c = false ∧ isC0OrSpace c = false := by
  simp only [isSchemeChar, isC0OrSpace, isUnsafeByte, Bool.or_eq_true, Bool.and_eq_true,
    Bool.or_eq_false_iff, decide_eq_true_eq, decide_eq_false_iff_not, beq_iff_eq,
    beq_eq_false_iff_ne, ne_eq] at h ⊢
  by_cases hu : 65 ≤ c.toNat ∧ c.toNat ≤ 90
  · have ht := toLower_toNat_upper hu.1 hu.2
    have ht2 := toLower_not_upper (c := c.toLower) (by omega)
    refine ⟨by omega, ht2, by omega, by omega⟩
  · have ht := toLower_not_upper (c := c) (by omega)
    rw [ht]
    refine ⟨h, ht, by omega, by omega⟩

theorem asciiAlpha_toLower {c : Char} (h : isAsciiAlpha c = true) :
    isAsciiAlpha c.toLower = true := by
  simp only [isAsciiAlpha, Bool.or_eq_true, Bool.and_eq_true, decide_eq_true_eq] at h ⊢
  by_cases hu : 65 ≤ c.toNat ∧ c.toNat ≤ 90
  · have ht := toLower_toNat_upper hu.1 hu.2
    omega
  · rw [toLower_not_upper (c := c) (by omega)]
    omega

theorem asciiAlpha_not_c0 {c : Char} (h : isAsciiAlpha c = true) : isC0OrSpace c = false := by
  simp only [isAsciiAlpha, isC0OrSpace, Bool.or_eq_true, Bool.and_eq_true,
    decide_eq_true_eq, decide_eq_false_iff_not] at h ⊢
  omega

/-! Structural facts used to reparse the URLs that `clean_url` builds. -/

/-- Scheme strings as produced by a successful `splitScheme`. -/
def GoodScheme (s : List Char) : Prop :=
  s ≠ [] ∧ isAsciiAlpha (s.headD ' ') = true ∧
  ∀ c ∈ s, isSchemeChar c = true ∧ c.toLower = c

/-- Netloc strings as produced by a successful `urlparse`. -/
def GoodNetloc (n : List Char) : Prop :=
  netlocOk n = true ∧ ∀ c ∈ n, notNetDelim c = true ∧ isUnsafeByte c = false

theorem map_toLower_fixed {s : List Char} (h : ∀ c ∈ s, c.toLower = c) :
    s.map Char.toLower = s := by
  induction s with
  | nil => rfl
  | cons a t ih =>
    simp only [List.map_cons, h a (List.mem_cons_self a t), List.cons.injEq, true_and]
    exact ih fun c hc => h c (List.mem_cons_of_mem a hc)

theorem takeWhile_all_append {p : Char → Bool} {l : List Char} (r : List Char)
    (hl : ∀ c ∈ l, p c = true) {d : Char} (hd : p d = false) :
    (l ++ d :: r).takeWhile p = l ∧ (l ++ d :: r).dropWhile p = d :: r := by
  constructor
  · rw [List.takeWhile_append_of_pos hl, List.takeWhile_cons_of_neg (by simp [hd]),
      List.append_nil]
  · rw [List.dropWhile_append_of_pos hl, List.dropWhile_cons_of_neg (by simp [hd])]

theorem splitScheme_reassembled {s : List Char} (hs : GoodScheme s) (r : List Char) :
    splitScheme (s ++ ':' :: r) = (s, r) := by
  obtain ⟨hne, hhead, hall⟩ := hs
  have ht := takeWhile_all_append (p := isSchemeChar) (l := s) r
      (fun c hc => (hall c hc).1) (d := ':') (by decide)
  simp only [splitScheme, ht.1, ht.2]
  rw [if_pos ⟨hne, hhead⟩, map_toLower_fixed (fun c hc => (hall c hc).2)]

theorem sanitize_good {s r : List Char} (hs : GoodScheme s)
    (hr : ∀ c ∈ r, isUnsafeByte c = false) :
    sanitize (s ++ ':' :: r) = s ++ ':' :: r := by
  obtain ⟨hne, hhead, hall⟩ := hs
  unfold sanitize
  have hdw : (s ++ ':' :: r).dropWhile isC0OrSpace = s ++ ':' :: r := by
    cases s with
    | nil => exact absurd rfl hne
    | cons a t =>
      have ha : isC0OrSpace a = false := asciiAlpha_not_c0 hhead
      rw [List.cons_append, List.dropWhile_cons_of_neg (by simp [ha])]
  rw [hdw, List.filter_eq_self.mpr]
  intro c hc
  rcases List.mem_append.mp hc with hcs | hcr
  · simp [(schemeChar_bundle (hall c hcs).1).2.2.1]
  · rcases List.mem_cons.mp hcr with hcol | hcr2
    · subst hcol; decide
    · simp [hr c hcr2]

theorem urlparse_reassembled {s n : List Char} (hs : GoodScheme s) (hn : GoodNetloc n) :
    urlparse (s ++ schemeSep ++ n ++ serverStatus) = .ok ⟨s, n, serverStatus⟩ := by
  have hform : s ++ schemeSep ++ n ++ serverStatus
      = s ++ ':' :: ('/' :: '/' :: (n ++ serverStatus)) := by
    simp [schemeSep, List.append_assoc]
  have hssUnsafe : ∀ c ∈ serverStatus, isUnsafeByte c = false := by decide
  have hrest : ∀ c ∈ ('/' :: '/' :: (n ++ serverStatus)), isUnsafeByte c = false := by
    intro c hc
    rcases List.mem_cons.mp hc with h1 | hc2
    · subst h1; decide
    rcases List.mem_cons.mp hc2 with h1 | hc3
    · subst h1; decide
    rcases List.mem_append.mp hc3 with h1 | h1
    · exact (hn.2 c h1).2
    · exact hssUnsafe c h1
  have hsan := sanitize_good hs hrest
  have hsplit := splitScheme_reassembled hs ('/' :: '/' :: (n ++ serverStatus))
  have hnet : List.takeWhile notNetDelim (n ++ serverStatus) = n ∧
      List.dropWhile notNetDelim (n ++ serverStatus) = serverStatus :=
    takeWhile_all_append (p := notNetDelim)
      (l := n) ['s', 'e', 'r', 'v', 'e', 'r', '-', 's', 't', 'a', 't', 'u', 's']
      (fun c hc => (hn.2 c hc).1) (d := '/') (by decide)
  have htake : List.take 2 ('/' :: '/' :: (n ++ serverStatus)) = ['/', '/'] := rfl
  have hdrop : List.drop 2 ('/' :: '/' :: (n ++ serverStatus)) = n ++ serverStatus := rfl
  have hph : List.takeWhile notHash serverStatus = serverStatus := by decide
  have hpq : List.takeWhile notQm serverStatus = serverStatus := by decide
  have hsp : splitparams serverStatus = serverStatus := by decide
  simp only [urlparse, hform, hsan, hsplit, htake, hdrop, hnet.1, hnet.2, hph, hpq, hsp,
    hn.1, eq_self_iff_true, ite_true, ite_self]

theorem goodScheme_http : GoodScheme httpChars := by
  refine ⟨by decide, by decide, ?_⟩
  decide

theorem urlparse_http_prepended {x : List Char} {p : UrlParts}
    (h : urlparse (httpChars ++ schemeSep ++ x) = .ok p) : p.scheme = httpChars := by
  have hx : httpChars ++ schemeSep ++ x = httpChars ++ ':' :: ('/' :: '/' :: x) := rfl
  have hsan : sanitize (httpChars ++ ':' :: ('/' :: '/' :: x))
      = httpChars ++ ':' :: ('/' :: '/' :: (x.filter fun c => !isUnsafeByte c)) := by
    show sanitize ('h' :: 't' :: 't' :: 'p' :: ':' :: '/' :: '/' :: x)
        = 'h' :: 't' :: 't' :: 'p' :: ':' :: '/' :: '/' :: (x.filter fun c => !isUnsafeByte c)
    simp +decide [sanitize, List.dropWhile_cons, List.filter_cons]
  have hsp := splitScheme_reassembled goodScheme_http
    ('/' :: '/' :: (x.filter fun c => !isUnsafeByte c))
  rw [hx] at h
  simp only [urlparse, hsan, hsp] at h
  split at h
  · split at h
    · injection h with h2
      rw [← h2]
    · simp at h
  · split at h
    · injection h with h2
      rw [← h2]
    · simp at h

theorem splitScheme_cases {u sc rest : List Char} (h : splitScheme u = (sc, rest)) :
    (sc = [] ∧ rest = u) ∨ (GoodScheme sc ∧ ∀ c ∈ rest, c ∈ u) := by
  simp only [splitScheme] at h
  split at h
  · rename_i r heq
    split at h
    · rename_i hguard
      injection h with h1 h2
      right
      constructor
      · refine ⟨?_, ?_, ?_⟩
        · rw [← h1]
          simp [hguard.1]
        · rw [← h1]
          rcases List.exists_cons_of_ne_nil hguard.1 with ⟨a, t, hat⟩
          rw [hat]
          simp only [List.map_cons, List.headD_cons]
          have := hguard.2
          rw [hat] at this
          simp only [List.headD_cons] at this
          exact asciiAlpha_toLower this
        · intro c hc
          rw [← h1] at hc
          rcases List.mem_map.mp hc with ⟨a, ha, rfl⟩
          have hsc := List.mem_takeWhile_imp ha
          exact ⟨(schemeChar_bundle hsc).1, (schemeChar_bundle hsc).2.1⟩
      · intro c hc
        rw [← h2] at hc
        have : c ∈ u.dropWhile isSchemeChar := by
          rw [heq]
          exact List.mem_cons_of_mem _ hc
        exact (List.dropWhile_sublist isSchemeChar).subset this
    · injection h with h1 h2
      exact Or.inl ⟨h1.symm, h2.symm⟩
  · injection h with h1 h2
    exact Or.inl ⟨h1.symm, h2.symm⟩

theorem urlparse_good {x : List Char} {p : UrlParts} (h : urlparse x = .ok p) :
    (p.scheme = [] ∨ GoodScheme p.scheme) ∧ GoodNetloc p.netloc := by
  have hu : ∀ c ∈ sanitize x, isUnsafeByte c = false := by
    intro c hc
    have := (List.mem_filter.mp hc).2
    simpa using this
  cases hss : splitScheme (sanitize x) with
  | mk sc rest =>
    have hcases := splitScheme_cases hss
    have hrest : ∀ c ∈ rest, isUnsafeByte c = false := by
      rcases hcases with ⟨_, hr⟩ | ⟨_, hr⟩
      · intro c hc
        exact hu c (hr ▸ hc)
      · intro c hc
        exact hu c (hr c hc)
    simp only [urlparse, hss] at h
    split at h
    · split at h
      · injection h with h2
        rw [← h2]
        constructor
        · rcases hcases with ⟨h1, _⟩ | ⟨h1, _⟩
          · exact Or.inl h1
          · exact Or.inr h1
        · rename_i hok
          refine ⟨by simpa using hok, ?_⟩
          intro c hc
          refine ⟨List.mem_takeWhile_imp hc, ?_⟩
          have hcr : c ∈ rest := by
            have h1 : c ∈ List.drop 2 rest := (List.takeWhile_sublist notNetDelim).subset hc
            exact (List.drop_subset 2 rest) h1
          exact hrest c hcr
      · simp at h
    · split at h
      · injection h with h2
        rw [← h2]
        constructor
        · rcases hcases with ⟨h1, _⟩ | ⟨h1, _⟩
          · exact Or.inl h1
          · exact Or.inr h1
        · constructor
          · show netlocOk [] = true
            decide
          · show ∀ c ∈ ([] : List Char), notNetDelim c = true ∧ isUnsafeByte c = false
            simp
      · simp at h

/-- Every URL that `clean_url` returns reparses successfully, with a
non-empty scheme and a path ending in `/server-status`. -/
theorem clean_url_reparse {x y : List Char} (h : clean_url x = .ok y) :
    ∃ p, urlparse y = .ok p ∧ p.scheme ≠ [] ∧ serverStatus.isSuffixOf p.path = true := by
  simp only [clean_url] at h
  split at h
  · exact absurd h (by simp)
  · rename_i parsed hp
    split at h
    · split at h
      · exact absurd h (by simp)
      · rename_i p2 hp2
        have hscheme := urlparse_http_prepended hp2
        split at h
        · rename_i hsuf
          injection h with hy
          refine ⟨p2, ?_, ?_, hsuf⟩
          · rw [← hy]
            exact hp2
          · rw [hscheme]
            decide
        · injection h with hy
          have hgood := urlparse_good hp2
          have hgs : GoodScheme p2.scheme := by
            rw [hscheme]
            exact goodScheme_http
          have hre := urlparse_reassembled hgs hgood.2
          have hss : serverStatus.isSuffixOf serverStatus = true := by decide
          refine ⟨⟨p2.scheme, p2.netloc, serverStatus⟩, ?_, ?_, hss⟩
          · rw [← hy]
            exact hre
          · show p2.scheme ≠ []
            rw [hscheme]
            decide
    · rename_i hempty
      have hne : parsed.scheme ≠ [] := by
        intro h0
        apply hempty
        rw [h0]
        rfl
      split at h
      · rename_i hsuf
        injection h with hy
        refine ⟨parsed, ?_, hne, hsuf⟩
        rw [← hy]
        exact hp
      · injection h with hy
        have hgood := urlparse_good hp
        have hgs : GoodScheme parsed.scheme := by
          rcases hgood.1 with h0 | hg
          · exact absurd h0 hne
          · exact hg
        have hre := urlparse_reassembled hgs hgood.2
        have hss : serverStatus.isSuffixOf serverStatus = true := by decide
        refine ⟨⟨parsed.scheme, parsed.netloc, serverStatus⟩, ?_, hne, hss⟩
        rw [← hy]
        exact hre

/-- Applying `clean_url` to one of its own successful outputs returns
that output unchanged. -/
theorem clean_url_fix {x y : List Char} (h : clean_url x = .ok y) :
    clean_url y = .ok y := by
  obtain ⟨p, hp, hne, hsuf⟩ := clean_url_reparse h
  have he : p.scheme.isEmpty = false := by
    cases hs : p.scheme
    · exact absurd hs hne
    · rfl
  simp [clean_url, hp, he, hsuf]



/-! Claim theorems. -/

/-- C10: `clean_url` is total on the empty string, returning the
empty-host URL `http:///server-status` rather than raising. -/
theorem clean_url_empty_total : clean_url [] = .ok "http:///server-status".toList := by decide

/-- C8: normalization is idempotent.  For every input string,
re-normalizing the result of `clean_url` (in the Kleisli sense, so that
an input on which `clean_url` raises stays an error) gives the same
result: `clean_url x >>= clean_url = clean_url x`; in particular every
successful output is a fixed point. -/
theorem clean_url_idempotent (x : List Char) :
    (clean_url x).bind clean_url = clean_url x := by
  cases h : clean_url x with
  | error e => rfl
  | ok y => exact clean_url_fix h

theorem clean_url_idempotent_witness :
    (clean_url "example.com".toList).bind clean_url = clean_url "example.com".toList :=
  clean_url_idempotent "example.com".toList

/-- C2 counterexample: on `http://example.com/foo/server-status` the
claim fails: `clean_url` returns the URL unchanged and its path
component is `/foo/server-status`, not exactly `/server-status`. -/
theorem clean_url_path_not_exact :
    clean_url "http://example.com/foo/server-status".toList
        = .ok "http://example.com/foo/server-status".toList ∧
    (urlparse "http://example.com/foo/server-status".toList).map UrlParts.path
        ≠ .ok serverStatus := by
  exact ⟨by decide, by decide⟩

/-- C2 amended: every URL produced by `clean_url` has a path component
that ENDS WITH `/server-status` (it need not be exactly that, since a
path already ending in `/server-status` is kept unchanged). -/
theorem clean_url_path_endswith {x y : List Char} (h : clean_url x = .ok y) :
    ∃ p, urlparse y = .ok p ∧ serverStatus.isSuffixOf p.path = true := by
  obtain ⟨p, hp, _, hsuf⟩ := clean_url_reparse h
  exact ⟨p, hp, hsuf⟩

theorem clean_url_path_endswith_witness :
    ∃ p, urlparse "http://example.com/server-status".toList = .ok p ∧
      serverStatus.isSuffixOf p.path = true :=
  @clean_url_path_endswith "example.com".toList
    "http://example.com/server-status".toList (by decide)

/-- C5: on a table with a header row plus one data row with exactly the
15 required columns (pid "123" at index 1, vhost "example.com" at index
13, request "GET /foo HTTP/1.1" at index 14), the extractor yields
exactly the one record with pid "123", method "GET" and url
`http://example.com/foo`. -/
theorem extract_single_row :
    extract_urls c5Dom
      = [⟨"123".toList, "GET".toList, "http://example.com/foo".toList⟩] := by decide

/-- C1: the processing loop of `main` terminates after a single pass in
single-URL mode: any uninterrupted run given one URL processes it
exactly once — the trace has length one — rather than polling
continuously.  This contradicts the claim (and the monitoring intent the
tool itself advertises with its refresh countdown). -/
theorem single_url_processed_once {net : Net} {u : List Char}
    {tr : List (List Char × ProcResult)}
    (h : runMain net ⟨some u, []⟩ = .ok tr) : tr.length = 1 := by
  simp only [runMain, targetList, runLoop] at h
  split at h
  · simp at h
  · injection h with h2
    rw [← h2]
    rfl

theorem single_url_processed_once_witness :
    ∃ tr, runMain netDown ⟨some "example.com".toList, []⟩ = .ok tr ∧ tr.length = 1 :=
  ⟨[("example.com".toList, ⟨false, some "None".toList, [], []⟩)], rfl,
    @single_url_processed_once netDown "example.com".toList
      [("example.com".toList, ⟨false, some "None".toList, [], []⟩)] rfl⟩

/-! Validator and extractor claims. -/

theorem pySpace_not_word {c : Char} (h : isPySpace c = true) : isWordChar c = false := by
  cases hw : isWordChar c
  · rfl
  · exfalso
    simp only [isPySpace, Bool.or_eq_true, beq_iff_eq] at h
    simp only [isWordChar, Bool.or_eq_true, Bool.and_eq_true, beq_iff_eq,
      decide_eq_true_eq] at hw
    omega

theorem takeWhile_all {p : Char → Bool} {l : List Char} (h : ∀ c ∈ l, p c = true) :
    l.takeWhile p = l := by
  induction l with
  | nil => rfl
  | cons a t ih =>
    rw [List.takeWhile_cons_of_pos (h a (List.mem_cons_self a t)),
      ih fun c hc => h c (List.mem_cons_of_mem a hc)]

/-- C3 counterexample: `c3Doc` is well-formed, non-empty HTML on which
indicator 2 holds (its `h1` text contains "Apache Server Status"), yet
`is_valid` raises a `TypeError` instead of returning `true`: the empty
`<title>` makes `soup.title.string` be `None` and
`"Apache Status" in None` raises while the indicator list is built. -/
theorem is_valid_raises_on_empty_title :
    indicatorH1 c3Doc = true ∧ c3Doc.raw ≠ [] ∧ is_valid c3Doc = .error () := by
  refine ⟨by decide, by decide, rfl⟩

/-- C3 amended: for every non-empty document whose first title element,
if one exists, has a determinate string, `is_valid` returns `true`
whenever at least one of the four indicators holds; on documents with a
title whose string is indeterminate it raises instead. -/
theorem is_valid_of_indicator {d : Doc} (hraw : d.raw ≠ [])
    (hsafe : titleSafe d = true)
    (hind : (indicatorTitle d || indicatorH1 d || indicatorRawH1 d || indicatorRawTh d)
      = true) :
    is_valid d = .ok true := by
  have hempty : d.raw.isEmpty = false := by
    cases hr : d.raw
    · exact absurd hr hraw
    · rfl
  simp only [is_valid, hempty, Bool.false_eq_true, if_false]
  cases ht : (findInList titleTag d.dom).head? with
  | none =>
    simp only [indicatorTitle, ht, Bool.false_or] at hind
    simp [ht, hind]
  | some t =>
    cases hs : nodeString t with
    | none =>
      exfalso
      simp only [titleSafe, ht, hs, Option.isSome_none] at hsafe
      exact absurd hsafe (by simp)
    | some str =>
      simp only [indicatorTitle, ht, hs] at hind
      simp [ht, hs, hind]

theorem is_valid_of_indicator_witness : is_valid goodTitleDoc = .ok true :=
  @is_valid_of_indicator goodTitleDoc (by decide) (by decide) (by decide)

/-- C4 counterexample: the request line `GE-T /foo HTTP/1.1` has a
method token made of non-space characters, then whitespace, a URI and an
HTTP version — by the claim it should match and yield a record — but
`\w+` does not accept the hyphen: the matcher fails and the row
(column 14 of `c4Row`) yields no record. -/
theorem request_method_nonspace_not_matched :
    (∀ c ∈ "GE-T".toList, notPySpace c = true) ∧
    rowRequest c4Row = "GE-T /foo HTTP/1.1".toList ∧
    matchRequest (rowRequest c4Row) = none ∧
    extract_urls c4Dom = [] := by
  refine ⟨by decide, by decide, by decide, by decide⟩

/-- C4 amended: the method is matched by `\w+` — one or more WORD
characters (letters, digits, underscore), not arbitrary non-space
characters.  A request line that is a non-empty word run, whitespace, a
non-empty non-space URI, then nothing or whitespace (e.g. an ignored
HTTP version token) matches and yields that method and URI; and a row
whose request line does not match is skipped without affecting the
entries accumulated from other rows. -/
theorem request_line_match_spec
    {m sp uri rest : List Char}
    (hm : m ≠ []) (hmw : ∀ c ∈ m, isWordChar c = true)
    (hsp : sp ≠ []) (hsps : ∀ c ∈ sp, isPySpace c = true)
    (huri : uri ≠ []) (hurin : ∀ c ∈ uri, notPySpace c = true)
    (hrest : rest = [] ∨ ∃ c rest2, rest = c :: rest2 ∧ isPySpace c = true) :
    matchRequest (m ++ sp ++ uri ++ rest) = some (m, uri) ∧
    ∀ acc row, matchRequest (rowRequest row) = none → processRow acc row = acc := by
  constructor
  · cases sp with
    | nil => exact absurd rfl hsp
    | cons d sp2 =>
      cases uri with
      | nil => exact absurd rfl huri
      | cons u0 uri2 =>
        have hd : isPySpace d = true := hsps d (List.mem_cons_self d sp2)
        have hu0 : isPySpace u0 = false := by
          have := hurin u0 (List.mem_cons_self u0 uri2)
          simpa [notPySpace] using this
        have hform : m ++ (d :: sp2) ++ (u0 :: uri2) ++ rest
            = m ++ d :: (sp2 ++ ((u0 :: uri2) ++ rest)) := by
          simp [List.append_assoc]
        have h1 := takeWhile_all_append (p := isWordChar) (l := m)
          (sp2 ++ ((u0 :: uri2) ++ rest)) hmw (d := d) (pySpace_not_word hd)
        have h2 := takeWhile_all_append (p := isPySpace) (l := d :: sp2)
          (uri2 ++ rest) hsps (d := u0) hu0
        have h3 : (u0 :: (uri2 ++ rest)).takeWhile notPySpace = u0 :: uri2 := by
          rcases hrest with h0 | ⟨c, rest2, hr, hc⟩
          · rw [h0, List.append_nil]
            exact takeWhile_all hurin
          · rw [hr]
            have h4 := takeWhile_all_append (p := notPySpace) (l := u0 :: uri2)
              rest2 hurin (d := c) (by simp [notPySpace, hc])
            have h5 : u0 :: (uri2 ++ c :: rest2) = (u0 :: uri2) ++ c :: rest2 := by simp
            rw [h5, h4.1]
        have e1 : (m ++ (d :: sp2) ++ (u0 :: uri2) ++ rest).takeWhile isWordChar = m := by
          rw [hform]
          exact h1.1
        have e2 : (m ++ (d :: sp2) ++ (u0 :: uri2) ++ rest).dropWhile isWordChar
            = (d :: sp2) ++ ((u0 :: uri2) ++ rest) := by
          rw [hform]
          exact h1.2
        have e3 : ((d :: sp2) ++ ((u0 :: uri2) ++ rest)).takeWhile isPySpace = d :: sp2 :=
          h2.1
        have e4 : ((d :: sp2) ++ ((u0 :: uri2) ++ rest)).dropWhile isPySpace
            = (u0 :: uri2) ++ rest := h2.2
        have e5 : ((u0 :: uri2) ++ rest).takeWhile notPySpace = u0 :: uri2 := h3
        have hmE : m.isEmpty = false := by
          cases m
          · exact absurd rfl hm
          · rfl
        simp only [matchRequest, e1, e2, e3, e4, e5, hmE]
        simp
  · intro acc row hnone
    simp only [processRow]
    split
    · rfl
    · rw [hnone]

theorem request_line_match_spec_witness :
    matchRequest ("GET".toList ++ " ".toList ++ "/foo".toList ++ " HTTP/1.1".toList)
        = some ("GET".toList, "/foo".toList) ∧
    ∀ acc row, matchRequest (rowRequest row) = none → processRow acc row = acc :=
  request_line_match_spec (by decide) (by decide) (by decide) (by decide)
    (by decide) (by decide)
    (Or.inr ⟨' ', "HTTP/1.1".toList, rfl, by decide⟩)

/-! Seen-set and controller claims. -/

/-- Invariants of the emission loop: the seen-set only grows, everything
emitted is in the final seen-set, the emitted list has no duplicates,
and every newly emitted URL was not in the initial seen-set. -/
theorem addEntries_spec (es : List Entry) :
    ∀ (seen emitted : List (List Char)),
    (∀ u ∈ emitted, u ∈ seen) → emitted.Nodup →
    (∀ u ∈ seen, u ∈ (addEntries es seen emitted).2) ∧
    (∀ u ∈ (addEntries es seen emitted).1, u ∈ (addEntries es seen emitted).2) ∧
    (addEntries es seen emitted).1.Nodup ∧
    (∀ u ∈ (addEntries es seen emitted).1, u ∈ emitted ∨ ¬ u ∈ seen) := by
  induction es with
  | nil =>
    intro seen emitted hsub hnd
    exact ⟨fun u hu => hu, hsub, hnd, fun u hu => Or.inl hu⟩
  | cons e es ih =>
    intro seen emitted hsub hnd
    simp only [addEntries]
    split
    · exact ih seen emitted hsub hnd
    · rename_i hmem
      have hnotin : ¬ e.url ∈ seen := by
        intro hx
        exact hmem (by simpa using hx)
      have hsub2 : ∀ u ∈ emitted ++ [e.url], u ∈ seen ++ [e.url] := by
        intro u hu
        rcases List.mem_append.mp hu with h1 | h1
        · exact List.mem_append_left _ (hsub u h1)
        · exact List.mem_append_right _ h1
      have hnd2 : (emitted ++ [e.url]).Nodup := by
        rw [List.nodup_append]
        refine ⟨hnd, List.nodup_singleton _, ?_⟩
        intro v hv hv2
        rw [List.mem_singleton] at hv2
        subst hv2
        exact hnotin (hsub _ hv)
      obtain ⟨A, B, C, D⟩ := ih (seen ++ [e.url]) (emitted ++ [e.url]) hsub2 hnd2
      refine ⟨fun u hu => A u (List.mem_append_left _ hu), B, C, ?_⟩
      intro u hu
      rcases D u hu with h1 | h1
      · rcases List.mem_append.mp h1 with h2 | h2
        · exact Or.inl h2
        · rw [List.mem_singleton] at h2
          subst h2
          exact Or.inr hnotin
      · exact Or.inr fun h2 => h1 (List.mem_append_left _ h2)

/-- Emission facts of one `process_url` call: no URL is emitted twice,
everything emitted lands in the final seen-set, the final seen-set
contains the initial one, and nothing already seen is emitted. -/
theorem process_url_emission {net : Net} {u : List Char} {S : List (List Char)}
    {r : ProcResult} (h : process_url net u S = .ok r) :
    r.emitted.Nodup ∧ (∀ v ∈ r.emitted, v ∈ r.seen) ∧ (∀ v ∈ S, v ∈ r.seen) ∧
    (∀ v ∈ r.emitted, ¬ v ∈ S) := by
  simp only [process_url] at h
  split at h
  · simp at h
  · split at h
    · simp at h
    · rename_i doc status heq2
      split at h
      · simp at h
      · injection h with h2
        rw [← h2]
        exact ⟨List.nodup_nil, by simp, fun v hv => hv, by simp⟩
      · cases hx : addEntries (extract_urls doc.dom) S [] with
        | mk em seen2 =>
          rw [hx] at h
          injection h with h2
          rw [← h2]
          have spec := addEntries_spec (extract_urls doc.dom) S [] (by simp) List.nodup_nil
          rw [hx] at spec
          exact ⟨spec.2.2.1, spec.2.1, spec.1,
            fun v hv => Or.resolve_left (spec.2.2.2 v hv) (by simp)⟩

/-- C9: the seen-set only grows across a `process_url` call — the
post-call seen-set contains every element of the pre-call one — and
every URL the call emits is a member of the post-call seen-set. -/
theorem seen_set_monotone {net : Net} {u : List Char} {S : List (List Char)}
    {r : ProcResult} (h : process_url net u S = .ok r) :
    (∀ v ∈ S, v ∈ r.seen) ∧ (∀ v ∈ r.emitted, v ∈ r.seen) := by
  have spec := process_url_emission h
  exact ⟨spec.2.2.1, spec.2.1⟩

theorem seen_set_monotone_witness :
    (∀ v ∈ ["http://old.example/x".toList],
      v ∈ (ProcResult.mk true none ["http://example.com/foo".toList]
        ["http://old.example/x".toList, "http://example.com/foo".toList]).seen) ∧
    (∀ v ∈ (ProcResult.mk true none ["http://example.com/foo".toList]
        ["http://old.example/x".toList, "http://example.com/foo".toList]).emitted,
      v ∈ (ProcResult.mk true none ["http://example.com/foo".toList]
        ["http://old.example/x".toList, "http://example.com/foo".toList]).seen) :=
  @seen_set_monotone netC5 "example.com".toList ["http://old.example/x".toList]
    ⟨true, none, ["http://example.com/foo".toList],
      ["http://old.example/x".toList, "http://example.com/foo".toList]⟩ rfl

/-- C7: within one run each distinct reconstructed URL is emitted at
most once: over the whole processing loop, the concatenation of the
per-target emitted URLs has no duplicate — a URL emitted for one target
is in the shared seen-set and is not emitted again for a later target —
and no URL of the initial seen-set is ever emitted. -/
theorem run_emissions_nodup {net : Net} :
    ∀ (ts : List (List Char)) (seen : List (List Char))
      (tr : List (List Char × ProcResult)),
    runLoop net ts seen = .ok tr →
    (tr.flatMap fun pr => pr.2.emitted).Nodup ∧
    (∀ v ∈ (tr.flatMap fun pr => pr.2.emitted), ¬ v ∈ seen) := by
  intro ts
  induction ts with
  | nil =>
    intro seen tr h
    simp only [runLoop] at h
    injection h with h2
    rw [← h2]
    simp
  | cons u us ih =>
    intro seen tr h
    simp only [runLoop] at h
    split at h
    · simp at h
    · rename_i r hr
      split at h
      · simp at h
      · rename_i rest hrest
        injection h with h2
        rw [← h2]
        have hpu := process_url_emission hr
        have hrec := ih r.seen rest hrest
        simp only [List.flatMap_cons]
        constructor
        · rw [List.nodup_append]
          refine ⟨hpu.1, hrec.1, ?_⟩
          intro v hv hv2
          exact hrec.2 v hv2 (hpu.2.1 v hv)
        · intro v hv
          rcases List.mem_append.mp hv with h1 | h1
          · exact hpu.2.2.2 v h1
          · intro hvseen
            exact hrec.2 v h1 (hpu.2.2.1 v hvseen)

theorem run_emissions_nodup_witness :
    (([("a.example".toList,
         ProcResult.mk true none ["http://example.com/foo".toList]
           ["http://example.com/foo".toList]),
       ("b.example".toList,
         ProcResult.mk true none [] ["http://example.com/foo".toList])].flatMap
        fun pr => pr.2.emitted).Nodup) ∧
    (∀ v ∈ ([("a.example".toList,
         ProcResult.mk true none ["http://example.com/foo".toList]
           ["http://example.com/foo".toList]),
       ("b.example".toList,
         ProcResult.mk true none [] ["http://example.com/foo".toList])].flatMap
        fun pr => pr.2.emitted), ¬ v ∈ ([] : List (List Char))) :=
  @run_emissions_nodup netC5 ["a.example".toList, "b.example".toList] [] _ rfl

/-- C6: when every fetch attempt across all retry rounds and candidate
schemes fails, `fetch` returns an empty body with no status code without
raising, and `process_url` classifies the target as not vulnerable,
reporting the status as `None` and emitting nothing. -/
theorem fetch_total_failure {net : Net} (hfail : ∀ a t, tryScheme net a t = none)
    {url y : List Char} (hc : clean_url url = .ok y) (seen : List (List Char)) :
    fetch net y = .ok (⟨[], []⟩, none) ∧
    process_url net url seen = .ok ⟨false, some "None".toList, [], seen⟩ := by
  obtain ⟨p, hp, hne, hsuf⟩ := clean_url_reparse hc
  have hfetch : fetch net y = .ok (⟨[], []⟩, none) := by
    simp only [fetch, hp]
    rw [List.findSome?_eq_none_iff.mpr (fun pr _ => hfail pr.1 pr.2)]
  refine ⟨hfetch, ?_⟩
  simp only [process_url, hc, hfetch]
  rfl

theorem fetch_total_failure_witness :
    fetch netDown "http://example.com/server-status".toList = .ok (⟨[], []⟩, none) ∧
    process_url netDown "example.com".toList []
      = .ok ⟨false, some "None".toList, [], []⟩ :=
  @fetch_total_failure netDown (fun a t => rfl)
    "example.com".toList "http://example.com/server-status".toList
    (by decide) []

end ApacheStatus
